import Mathlib

/-!
Shallow embedding of the time-aligned rendering and timeline-assembly engine
of the generate-captions repository (src/caption_video.py,
src/build_rashifal_video.py, src/generate_video.py, src/transcribe.py).
Times are Python floats in the source; they are modelled as rationals.
-/

namespace GenCaptions

/-- A recognized word with its time interval: the `{word, start, end}` dicts
produced by transcription.  The Python key `end` is a Lean keyword, so the
field is called `stop`. -/
structure Token where
  word : String
  start : ℚ
  stop : ℚ
deriving DecidableEq, Repr

/-- A token is active at time `t` when `token.start <= t < token.end`
(the containment test `w["start"] <= t < w["end"]` in the source). -/
def containsTime (w : Token) (t : ℚ) : Prop :=
  w.start ≤ t ∧ t < w.stop

instance (w : Token) (t : ℚ) : Decidable (containsTime w t) := by
  unfold containsTime; infer_instance

/-- The active-caption lookup
`next((w for w in words if w["start"] <= t < w["end"]), None)`
from `add_captions.make_frame` (src/caption_video.py line 163) and
`build_video.make_frame` (src/build_rashifal_video.py line 175):
a linear scan returning the first list entry containing `t`, or `none`. -/
def findActive (ws : List Token) (t : ℚ) : Option Token :=
  ws.find? (fun w => decide (containsTime w t))

/-- `w` is the first token, in list order, whose interval contains `t`. -/
def isFirstMatch (ws : List Token) (t : ℚ) (w : Token) : Prop :=
  ∃ i : Fin ws.length, ws.get i = w ∧ containsTime w t ∧
    ∀ j : Fin ws.length, (j : ℕ) < (i : ℕ) → ¬ containsTime (ws.get j) t

/-- Python `int(q)`: truncation toward zero. -/
def pyInt (q : ℚ) : ℤ :=
  if 0 ≤ q then ⌊q⌋ else ⌈q⌉

/-- Python float `a % b` for `b > 0`: `a - b * floor(a / b)`. -/
def pyMod (a b : ℚ) : ℚ :=
  a - b * ⌊a / b⌋

/-- `SEGMENT_DURATION = 2.0  # seconds per Ken Burns segment`
(src/caption_video.py line 175). -/
def SEGMENT_DURATION : ℚ := 2

/-- The Ken Burns scale factor computed in `add_effects.make_frame`
(src/caption_video.py lines 190-194):
`segment_idx = int(t / SEGMENT_DURATION)`, `t_in_seg = t % SEGMENT_DURATION`,
`zoom_in = (segment_idx % 2 == 0)`, `progress = t_in_seg / SEGMENT_DURATION`,
`scale = 1.0 + 0.08 * (progress if zoom_in else (1 - progress))`. -/
def zoomScale (t : ℚ) : ℚ :=
  let segment_idx := pyInt (t / SEGMENT_DURATION)
  let t_in_seg := pyMod t SEGMENT_DURATION
  let zoom_in := segment_idx % 2 = 0
  let progress := t_in_seg / SEGMENT_DURATION
  1 + (8 / 100) * (if zoom_in then progress else 1 - progress)

/-- The progress denominator `total_frames = max(int(clip.fps * clip.duration), 1)`
shared by `add_captions` (src/caption_video.py line 155) and `add_effects`
(line 182). -/
def framesTotal (fps duration : ℚ) : ℤ :=
  max (pyInt (fps * duration)) 1

/-- The denominator as the spec describes it: "derived from
`round(fps * total_duration)`, floored at 1" — rounding to nearest instead of
the source's truncation.  Kept separate so the two can be compared. -/
def framesTotalSpec (fps duration : ℚ) : ℤ :=
  max (round (fps * duration)) 1

/-- The value reported to the progress callback on the `k`-th frame request:
`min(frame_count[0] / total_frames, 1.0)` with `frame_count[0] = k`
(src/caption_video.py lines 160-162 and 187-189). -/
def progVal (total_frames : ℤ) (k : ℕ) : ℚ :=
  min ((k : ℚ) / (total_frames : ℚ)) 1

/-- The characters of the Python literal `".,।"` passed to `str.strip` in
`add_captions.make_frame` (src/caption_video.py line 165): full stop, comma
and the Devanagari danda. -/
def puncts : List Char := ['.', ',', '।']

/-- Python `s.strip(chars)`: remove the longest run of characters of `chars`
from the beginning and from the end of `s`. -/
def pyStrip (cs : List Char) (s : List Char) : List Char :=
  (((s.dropWhile (fun c => decide (c ∈ cs))).reverse.dropWhile
      (fun c => decide (c ∈ cs))).reverse)

/-- Trailing-only stripping, following the spec's words ("trailing
sentence-punctuation characters stripped (and only trailing ones)").
Kept separate so it can be compared with the source's `pyStrip`. -/
def stripTrailing (cs : List Char) (s : List Char) : List Char :=
  ((s.reverse.dropWhile (fun c => decide (c ∈ cs))).reverse)

/-- The caption text computed from an active token's word in
`add_captions.make_frame` (src/caption_video.py line 165) and
`build_video.make_frame` (src/generate_video.py line 157):
`current["word"].strip(".,।").upper()`, on character lists. -/
def renderTextL (s : List Char) : List Char :=
  (pyStrip puncts s).map Char.toUpper

/-- The caption text the spec describes: upper-cased with only trailing
punctuation stripped. -/
def specRenderL (s : List Char) : List Char :=
  (stripTrailing puncts s).map Char.toUpper

/-- `current["word"].strip(".,।").upper()` on `String`. -/
def renderText (s : String) : String :=
  String.mk (renderTextL s.data)

/-- The per-frame caption branch of `add_captions.make_frame`
(src/caption_video.py lines 163-167): find the active token; if there is one,
draw its rendered text onto the frame, otherwise return the decoded frame
unchanged.  The pixel-level `draw_caption` is a parameter: frame contents are
opaque to the timing logic. -/
def makeFrame {Frame : Type} (draw : Frame → String → Frame)
    (ws : List Token) (t : ℚ) (frame : Frame) : Frame :=
  match findActive ws t with
  | some w => draw frame (renderText w.word)
  | none => frame

/-- The `BOUNDARY_MAP` alias table of src/build_rashifal_video.py
(lines 35-53): Azure Devanagari output → canonical rashi name. -/
def BOUNDARY_MAP : List (String × String) :=
  [("मेष", "मेष"), ("वृषभ", "वृषभ"), ("मिथुन", "मिथुन"), ("कर्क", "कर्क"),
   ("कन्या", "कन्या"), ("तुला", "तुला"), ("वृश्चिक", "वृश्चिक"), ("धनु", "धनु"),
   ("मकर", "मकर"), ("कुंभ", "कुंभ"), ("मीन", "मीन"),
   ("लियो", "Leo"), ("लिओ", "Leo"), ("lio", "Leo"), ("leo", "Leo"),
   ("Leo", "Leo")]

/-- `BOUNDARY_MAP.get(w["word"], w["word"])` (src/build_rashifal_video.py
line 104): resolve a recognized word through the alias table, defaulting to
the word itself. -/
def resolveName (w : String) : String :=
  (List.lookup w BOUNDARY_MAP).getD w

/-- Python-dict assignment `d[k] = v` on an association list: replace the
value of an existing binding of `k`, else append a new binding. -/
def dictSet (acc : List (String × ℚ)) (k : String) (v : ℚ) :
    List (String × ℚ) :=
  if (List.lookup k acc).isSome then
    acc.map (fun p => if p.1 = k then (k, v) else p)
  else
    acc ++ [(k, v)]

/-- The scanning loop of `detect_boundaries` (src/build_rashifal_video.py
lines 103-106): for each word in order, resolve it through the alias table;
record its start time if the resolved name is requested and not yet
recorded. -/
def detectLoop (names : List String) (ws : List Token)
    (acc : List (String × ℚ)) : List (String × ℚ) :=
  match ws with
  | [] => acc
  | w :: rest =>
    let key := resolveName w.word
    if key ∈ names ∧ List.lookup key acc = none then
      detectLoop names rest (acc ++ [(key, w.start)])
    else
      detectLoop names rest acc

/-- `detect_boundaries(names, words, total_dur)` (src/build_rashifal_video.py
lines 101-108): scan the words, then set `boundaries["_end"] = total_dur - 0.1`.
The Python dict is modelled as an association list in insertion order. -/
def detect_boundaries (names : List String) (words : List Token)
    (total_dur : ℚ) : List (String × ℚ) :=
  dictSet (detectLoop names words []) "_end" (total_dur - 1 / 10)

/-- `reps = int(seg_dur / clip.duration) + 2` (src/build_rashifal_video.py
line 169): how many copies of the clip are concatenated before trimming. -/
def reps (seg_dur clip_dur : ℚ) : ℤ :=
  pyInt (seg_dur / clip_dur) + 2

/-- The duration of `concatenate_videoclips([clip] * reps).subclipped(0, seg_dur)`
(src/build_rashifal_video.py line 170): the looped clip lasts
`reps * clip_dur` and the subclip trims it at `seg_dur`. -/
def loopedTrimDur (seg_dur clip_dur : ℚ) : ℚ :=
  min ((reps seg_dur clip_dur : ℚ) * clip_dur) seg_dur

/-- Python `round(q, 3)` as used for `seg_dur = round(seg_end - seg_start, 3)`
(src/build_rashifal_video.py line 162), modelled with round-to-nearest. -/
def round3 (q : ℚ) : ℚ :=
  (round (q * 1000) : ℚ) / 1000

/-- One segment of the assembled timeline (src/build_rashifal_video.py
lines 156-180). -/
structure Segment where
  name : String
  start : ℚ
  stop : ℚ
  dur : ℚ
  tokens : List Token
deriving Repr

/-- `next((n for n in names[idx+1:] if n in boundaries), "_end")`
(src/build_rashifal_video.py line 160). -/
def nextBoundName (bounds : List (String × ℚ)) (rest : List String) : String :=
  (rest.find? (fun m => (List.lookup m bounds).isSome)).getD "_end"

/-- The segment-construction loop of `build_video`
(src/build_rashifal_video.py lines 156-180): names without a boundary are
skipped; each resolved name yields one segment running to the next resolved
boundary (or `_end`), carrying the tokens whose start lies in the segment. -/
def buildSegments (bounds : List (String × ℚ)) (words : List Token) :
    List String → List Segment
  | [] => []
  | name :: rest =>
    match List.lookup name bounds with
    | none => buildSegments bounds words rest
    | some seg_start =>
      let next_name := nextBoundName bounds rest
      let seg_end := (List.lookup next_name bounds).getD 0
      let seg_dur := round3 (seg_end - seg_start)
      let seg_words := words.filter
        (fun w => decide (seg_start ≤ w.start ∧ w.start < seg_end))
      { name := name, start := seg_start, stop := seg_end, dur := seg_dur,
        tokens := seg_words } :: buildSegments bounds words rest

/-- The control flow of `build_video` (src/build_rashifal_video.py
lines 144-189) up to the encode: detect boundaries, build the segment list,
and abort with `"no segments detected"` before any output is written when the
list is empty (`if not segments: ... return`, lines 182-184).  An `ok` value
stands for the written output file. -/
def build_video (names : List String) (words : List Token) (total_dur : ℚ) :
    Except String (List Segment) :=
  let boundaries := detect_boundaries names words total_dur
  let segments := buildSegments boundaries words names
  if segments.isEmpty then Except.error "no segments detected"
  else Except.ok segments

/-- `words[i:i + batch_size]` chunking of `to_hinglish`
(src/caption_video.py line 97-98).  The `n = 0` branch never arises in the
source (the batch size is 50); it is only there so the recursion is total. -/
def chunksOf (n : ℕ) (l : List α) : List (List α) :=
  if l.isEmpty then []
  else if _h : n = 0 then [l]
  else l.take n :: chunksOf n (l.drop n)
termination_by l.length
decreasing_by
  simp only [List.length_drop]
  rcases l with _ | ⟨x, xs⟩
  · simp [List.isEmpty] at *
  · simp only [List.length_cons]
    omega

/-- The per-batch repair of `to_hinglish` (src/caption_video.py
lines 109-112): a short model reply is padded with the original words of the
batch, and the result is cut to the batch size before being appended. -/
def batchFix (result orig : List String) : List String :=
  (if result.length < orig.length then
    result ++ orig.drop result.length
  else result).take orig.length

/-- `to_hinglish(words, batch_size=50)` (src/caption_video.py lines 85-118).
The model's reply for the `i`-th batch is external input, supplied as
`responses i`.  Each repaired batch is concatenated, and the words are
rebuilt keeping each input word's start and end times. -/
def to_hinglish (responses : ℕ → List String) (words : List Token) :
    List Token :=
  let batches := chunksOf 50 (words.map (·.word))
  let hinglish_all :=
    (batches.enum.map (fun p => batchFix (responses p.1) p.2)).flatten
  List.zipWith (fun h (w : Token) => { word := h, start := w.start, stop := w.stop })
    hinglish_all words

/-! ## Theorems -/

theorem findActive_none_iff (ws : List Token) (t : ℚ) :
    findActive ws t = none ↔ ∀ w ∈ ws, ¬ containsTime w t := by
  unfold findActive
  rw [List.find?_eq_none]
  constructor
  · intro h w hw hc
    exact absurd (of_decide_eq_true (by simpa using h w hw)) (by simp_all)
  · intro h w hw
    simpa using h w hw

theorem findActive_some_first (ws : List Token) (t : ℚ) (w : Token)
    (h : findActive ws t = some w) : isFirstMatch ws t w := by
  induction ws with
  | nil => simp [findActive] at h
  | cons x xs ih =>
    unfold findActive at h
    rw [List.find?_cons] at h
    by_cases hx : containsTime x t
    · simp only [decide_eq_true hx] at h
      cases h
      exact ⟨⟨0, by simp⟩, rfl, hx, fun j hj => absurd hj (Nat.not_lt_zero _)⟩
    · simp only [decide_eq_false hx] at h
      obtain ⟨i, hi, hc, hfirst⟩ := ih h
      refine ⟨⟨i + 1, by simp⟩, by simpa using hi, hc, ?_⟩
      intro j hj
      match j with
      | ⟨0, _⟩ => simpa using hx
      | ⟨k + 1, hk⟩ =>
        have := hfirst ⟨k, by simpa using hk⟩ (Nat.lt_of_succ_lt_succ hj)
        simpa using this

/-- Claim C1: for every token list and query time `t`, the active-caption
lookup returns the first token in list order whose interval contains `t`
under `start <= t < end` (also for unsorted or overlapping tokens); when no
interval contains `t` it returns `none` rather than an error; and repeated
queries with the same inputs return the same result. -/
theorem active_caption_lookup (ws : List Token) (t : ℚ) :
    (∀ w, findActive ws t = some w → isFirstMatch ws t w) ∧
    (findActive ws t = none ↔ ∀ w ∈ ws, ¬ containsTime w t) ∧
    findActive ws t = findActive ws t :=
  ⟨findActive_some_first ws t, findActive_none_iff ws t, rfl⟩

/-- Witness for C1: on two overlapping tokens both containing `t = 1`,
the lookup returns the first list entry. -/
theorem active_caption_lookup_witness :
    isFirstMatch [⟨"b", 0, 2⟩, ⟨"a", 0, 3⟩] 1 ⟨"b", 0, 2⟩ :=
  (active_caption_lookup [⟨"b", 0, 2⟩, ⟨"a", 0, 3⟩] 1).1 ⟨"b", 0, 2⟩ (by decide)

theorem zoomScale_le_bound (t : ℚ) : zoomScale t ≤ 1 + 8 / 100 := by
  have h2 : 0 ≤ Int.fract (t / 2) := Int.fract_nonneg _
  have h3 : Int.fract (t / 2) ≤ 1 := le_of_lt (Int.fract_lt_one _)
  have hm : pyMod t SEGMENT_DURATION / SEGMENT_DURATION = Int.fract (t / 2) := by
    simp only [pyMod, SEGMENT_DURATION, Int.fract]
    ring
  simp only [zoomScale]
  rw [hm]
  split
  · linarith
  · linarith

/-- Counterexample for C4: at `t = segment_length` the computed scale is
`1.08`, not `1.0` — the zoom direction alternates, so a zoom-out half-cycle
starts fully zoomed in at that boundary. -/
theorem zoom_scale_boundary_counterexample :
    zoomScale SEGMENT_DURATION ≠ 1 := by
  norm_num [zoomScale, pyInt, pyMod, SEGMENT_DURATION]

/-- Claim C4 (amended): for the Zoom-Effect Transform with segment length
2.0 and max zoom 0.08, `scale(0) = 1.0` and `scale(2 * segment_length) = 1.0`
(baseline recurs at every full in/out cycle), while
`scale(segment_length) = 1 + max_zoom`; and for every time `t >= 0` the scale
never exceeds `1 + max_zoom`. -/
theorem zoom_scale_amended :
    zoomScale 0 = 1 ∧ zoomScale SEGMENT_DURATION = 1 + 8 / 100 ∧
    zoomScale (2 * SEGMENT_DURATION) = 1 ∧
    ∀ t : ℚ, 0 ≤ t → zoomScale t ≤ 1 + 8 / 100 := by
  refine ⟨?_, ?_, ?_, fun t _ => zoomScale_le_bound t⟩ <;>
    norm_num [zoomScale, pyInt, pyMod, SEGMENT_DURATION]

/-- Witness for C4 (amended), at `t = 1`. -/
theorem zoom_scale_amended_witness : zoomScale 1 ≤ 1 + 8 / 100 :=
  zoom_scale_amended.2.2.2 1 (by norm_num)

theorem one_le_framesTotal (fps duration : ℚ) : 1 ≤ framesTotal fps duration :=
  le_max_right _ _

theorem framesTotal_pos_q (fps duration : ℚ) :
    (0 : ℚ) < (framesTotal fps duration : ℚ) := by
  have := one_le_framesTotal fps duration
  exact_mod_cast lt_of_lt_of_le Int.zero_lt_one this

/-- Counterexample for C5: with `fps * total_duration = 2.9` the source's
`max(int(fps * duration), 1)` gives 2 while the claimed
`round(fps * duration)` floored at 1 gives 3 — the code truncates, it does
not round to nearest. -/
theorem frames_total_round_counterexample :
    framesTotal 1 (29 / 10) ≠ framesTotalSpec 1 (29 / 10) := by
  norm_num [framesTotal, framesTotalSpec, pyInt, round_eq]

/-- Claim C5 (amended): the progress denominator is
`max(trunc(fps * total_duration), 1)` (truncation, not rounding to nearest);
every reported progress value lies in `[0, 1]`, the reported sequence is
non-decreasing in the number of frames requested, after all `frames_total`
frames the last reported value is exactly `1.0`, and duration 10.0s at
fps 30 gives `frames_total = 300`. -/
theorem progress_reporter_amended (fps duration : ℚ) :
    framesTotal 30 10 = 300 ∧
    1 ≤ framesTotal fps duration ∧
    (∀ k : ℕ, 0 ≤ progVal (framesTotal fps duration) k ∧
      progVal (framesTotal fps duration) k ≤ 1) ∧
    (∀ j k : ℕ, j ≤ k →
      progVal (framesTotal fps duration) j ≤ progVal (framesTotal fps duration) k) ∧
    progVal (framesTotal fps duration) (framesTotal fps duration).toNat = 1 := by
  have hpos := framesTotal_pos_q fps duration
  refine ⟨by norm_num [framesTotal, pyInt], one_le_framesTotal fps duration,
    fun k => ⟨?_, min_le_right _ _⟩, fun j k hjk => ?_, ?_⟩
  · exact le_min (div_nonneg (Nat.cast_nonneg k) hpos.le) zero_le_one
  · exact min_le_min
      ((div_le_div_iff_of_pos_right hpos).mpr (by exact_mod_cast hjk)) le_rfl
  · have h0 : (0 : ℤ) ≤ framesTotal fps duration :=
      le_trans zero_le_one (one_le_framesTotal fps duration)
    have hN : ((framesTotal fps duration).toNat : ℚ)
        = ((framesTotal fps duration : ℤ) : ℚ) := by
      exact_mod_cast Int.toNat_of_nonneg h0
    rw [progVal, hN, div_self (ne_of_gt hpos), min_self]

/-- Witness for C5 (amended): at fps 30 and duration 10, the first reported
value is below the second. -/
theorem progress_reporter_amended_witness :
    progVal (framesTotal 30 10) 1 ≤ progVal (framesTotal 30 10) 2 :=
  (progress_reporter_amended 30 10).2.2.2.1 1 2 (by norm_num)

/-- Claim C3: for every resolved segment with duration `d > 0` and clip of
positive natural duration `c`, the computed repeat count `r` covers the
segment (`r * c >= d`, with `r >= ceil(d / c)`), and the looped clip is then
trimmed to exactly duration `d`. -/
theorem timeline_repeat_covers (d c : ℚ) (hd : 0 < d) (hc : 0 < c) :
    d ≤ (reps d c : ℚ) * c ∧ ⌈d / c⌉ ≤ reps d c ∧ loopedTrimDur d c = d := by
  have hdc : (0 : ℚ) ≤ d / c := le_of_lt (div_pos hd hc)
  have hre : reps d c = ⌊d / c⌋ + 2 := by simp [reps, pyInt, hdc]
  have h1 : d / c < (⌊d / c⌋ : ℚ) + 1 := Int.lt_floor_add_one _
  have h2 : d < ((⌊d / c⌋ : ℚ) + 1) * c := by
    rw [div_lt_iff₀ hc] at h1
    linarith
  have hcov : d ≤ (reps d c : ℚ) * c := by
    rw [hre]
    push_cast
    nlinarith [hc.le]
  refine ⟨hcov, ?_, min_eq_right hcov⟩
  rw [hre]
  have := Int.ceil_le_floor_add_one (d / c)
  omega

/-- Witness for C3: a 2.0s segment with a 1.5s clip. -/
theorem timeline_repeat_covers_witness :
    (2 : ℚ) ≤ (reps 2 (3 / 2) : ℚ) * (3 / 2) ∧ ⌈(2 : ℚ) / (3 / 2)⌉ ≤ reps 2 (3 / 2) ∧
    loopedTrimDur 2 (3 / 2) = 2 :=
  timeline_repeat_covers 2 (3 / 2) (by norm_num) (by norm_num)

/-- Claim C6: for every frame and every time `t` at which no token's
interval contains `t`, the caption path returns the decoded frame
unmodified — identical to the input frame, with nothing drawn. -/
theorem compositor_identity (Frame : Type) (draw : Frame → String → Frame)
    (ws : List Token) (t : ℚ) (frame : Frame)
    (h : ∀ w ∈ ws, ¬ containsTime w t) :
    makeFrame draw ws t frame = frame := by
  unfold makeFrame
  rw [(findActive_none_iff ws t).mpr h]

/-- Witness for C6: a time outside the only token's interval leaves the
frame value untouched. -/
theorem compositor_identity_witness :
    makeFrame (fun (f : ℕ) (_ : String) => f + 1) [⟨"hi", 0, 1⟩] 5 7 = 7 :=
  compositor_identity ℕ (fun f _ => f + 1) [⟨"hi", 0, 1⟩] 5 7 (by decide)

theorem head?_dropWhile_false {α : Type} (p : α → Bool) (l : List α) (a : α)
    (h : (l.dropWhile p).head? = some a) : p a = false := by
  induction l with
  | nil => simp at h
  | cons x xs ih =>
    rw [List.dropWhile_cons] at h
    split at h
    · exact ih h
    · next hx =>
      obtain rfl : x = a := by simpa using h
      simpa using hx

theorem getLast?_dropWhile_ne_nil {α : Type} (p : α → Bool) (l : List α)
    (h : l.dropWhile p ≠ []) : (l.dropWhile p).getLast? = l.getLast? := by
  induction l with
  | nil => simp at h
  | cons x xs ih =>
    rw [List.dropWhile_cons] at h ⊢
    by_cases hx : p x = true
    · simp only [hx, if_true] at h ⊢
      rcases xs with _ | ⟨y, ys⟩
      · simp at h
      · rw [ih h, List.getLast?_cons_cons]
    · simp [hx]

/-- Counterexample for C7: a leading full stop is also removed —
`".a".strip(".,।").upper()` is `"A"`, not `".A"` as trailing-only stripping
would give.  Python `str.strip` strips both ends. -/
theorem caption_strip_counterexample :
    renderTextL ['.', 'a'] ≠ specRenderL ['.', 'a'] := by decide

/-- Claim C7 (amended): the rendered caption text is the token's text with
the longest leading run and the longest trailing run of characters from the
punctuation set `{'.', ',', '।'}` removed (Python `str.strip` trims both
ends), then upper-cased; the set contains both an ASCII sentence-ender and
the Devanagari danda; characters between the first and last non-punctuation
character are preserved (up to upper-casing). -/
theorem caption_text_amended (s : List Char) :
    renderTextL s = (pyStrip puncts s).map Char.toUpper ∧
    (∃ pre suf, (∀ c ∈ pre, c ∈ puncts) ∧ (∀ c ∈ suf, c ∈ puncts) ∧
      s = pre ++ pyStrip puncts s ++ suf) ∧
    (∀ a, (pyStrip puncts s).head? = some a → a ∉ puncts) ∧
    (∀ a, (pyStrip puncts s).getLast? = some a → a ∉ puncts) ∧
    '.' ∈ puncts ∧ '।' ∈ puncts := by
  set p : Char → Bool := fun c => decide (c ∈ puncts) with hp
  set m : List Char := s.dropWhile p with hmdef
  have hstrip : pyStrip puncts s = (m.reverse.dropWhile p).reverse := rfl
  refine ⟨rfl, ⟨s.takeWhile p, (m.reverse.takeWhile p).reverse, ?_, ?_, ?_⟩,
    ?_, ?_, by decide, by decide⟩
  · intro c hc
    have := List.mem_takeWhile_imp hc
    rw [hp] at this
    exact of_decide_eq_true this
  · intro c hc
    rw [List.mem_reverse] at hc
    have := List.mem_takeWhile_imp hc
    rw [hp] at this
    exact of_decide_eq_true this
  · have h1 : s = s.takeWhile p ++ m :=
      (List.takeWhile_append_dropWhile p s).symm
    have h2 : m.reverse = m.reverse.takeWhile p ++ m.reverse.dropWhile p :=
      (List.takeWhile_append_dropWhile p m.reverse).symm
    have h3 : m = (m.reverse.dropWhile p).reverse ++ (m.reverse.takeWhile p).reverse := by
      have := congrArg List.reverse h2
      rwa [List.reverse_reverse, List.reverse_append] at this
    rw [hstrip, List.append_assoc, ← h3]
    exact h1
  · intro a ha
    rw [hstrip, List.head?_reverse] at ha
    have hne : m.reverse.dropWhile p ≠ [] := by
      intro hnil
      rw [hnil] at ha
      simp at ha
    rw [getLast?_dropWhile_ne_nil p m.reverse hne, List.getLast?_reverse] at ha
    have := head?_dropWhile_false p s a (hmdef ▸ ha)
    rw [hp] at this
    simpa using of_decide_eq_false this
  · intro a ha
    rw [hstrip, List.getLast?_reverse] at ha
    have := head?_dropWhile_false p m.reverse a ha
    rw [hp] at this
    simpa using of_decide_eq_false this

/-- Witness for C7 (amended): on `".a."` the stripped core starts with a
non-punctuation character. -/
theorem caption_text_amended_witness : ¬ 'a' ∈ puncts :=
  (caption_text_amended ['.', 'a', '.']).2.2.1 'a' (by decide)

theorem lookup_cons {α β : Type} [BEq α] [LawfulBEq α] [DecidableEq α]
    (k a : α) (v : β) (tl : List (α × β)) :
    List.lookup k ((a, v) :: tl) = if k = a then some v else List.lookup k tl := by
  rcases eq_or_ne k a with h | h
  · subst h
    simp [List.lookup]
  · have hb : (k == a) = false := beq_eq_false_iff_ne.mpr h
    simp [List.lookup, hb, h]

theorem lookup_append {α β : Type} [BEq α] (k : α) (l1 l2 : List (α × β)) :
    List.lookup k (l1 ++ l2) = (List.lookup k l1).or (List.lookup k l2) := by
  induction l1 with
  | nil => simp
  | cons hd tl ih =>
    obtain ⟨a, b⟩ := hd
    simp only [List.cons_append, List.lookup]
    cases h : k == a <;> simp [ih]

theorem lookup_map_set (acc : List (String × ℚ)) (k : String) (v : ℚ)
    (h : (List.lookup k acc).isSome) :
    List.lookup k (acc.map (fun p => if p.1 = k then (k, v) else p)) = some v := by
  induction acc with
  | nil => simp at h
  | cons hd tl ih =>
    obtain ⟨a, b⟩ := hd
    by_cases hak : a = k
    · subst hak
      simp [lookup_cons]
    · rw [lookup_cons, if_neg (Ne.symm hak)] at h
      simp only [List.map_cons, if_neg hak]
      rw [lookup_cons, if_neg (Ne.symm hak)]
      exact ih h

theorem lookup_map_set_ne (acc : List (String × ℚ)) (k : String) (v : ℚ)
    (k' : String) (hne : k' ≠ k) :
    List.lookup k' (acc.map (fun p => if p.1 = k then (k, v) else p)) =
      List.lookup k' acc := by
  induction acc with
  | nil => simp
  | cons hd tl ih =>
    obtain ⟨a, b⟩ := hd
    by_cases hak : a = k
    · subst hak
      simp only [List.map_cons, if_true]
      rw [lookup_cons, lookup_cons, if_neg hne, if_neg hne]
      exact ih
    · simp only [List.map_cons, if_neg hak]
      rw [lookup_cons, lookup_cons]
      split
      · rfl
      · exact ih

theorem lookup_dictSet_self (acc : List (String × ℚ)) (k : String) (v : ℚ) :
    List.lookup k (dictSet acc k v) = some v := by
  unfold dictSet
  split
  · next h => exact lookup_map_set acc k v h
  · next h =>
    rw [lookup_append]
    rw [Option.not_isSome_iff_eq_none] at h
    rw [h]
    simp [lookup_cons]

theorem lookup_dictSet_ne (acc : List (String × ℚ)) (k : String) (v : ℚ)
    (k' : String) (hne : k' ≠ k) :
    List.lookup k' (dictSet acc k v) = List.lookup k' acc := by
  unfold dictSet
  split
  · exact lookup_map_set_ne acc k v k' hne
  · rw [lookup_append]
    have h2 : List.lookup k' [(k, v)] = none := by simp [lookup_cons, hne]
    rw [h2]
    simp

theorem detectLoop_lookup (names : List String) (name : String)
    (hmem : name ∈ names) (ws : List Token) :
    ∀ acc : List (String × ℚ),
    List.lookup name (detectLoop names ws acc) =
      (List.lookup name acc).or
        ((ws.find? (fun w => resolveName w.word == name)).map Token.start) := by
  induction ws with
  | nil =>
    intro acc
    simp [detectLoop]
  | cons w rest ih =>
    intro acc
    simp only [detectLoop]
    by_cases hcond : resolveName w.word ∈ names ∧
        List.lookup (resolveName w.word) acc = none
    · rw [if_pos hcond, ih, lookup_append]
      by_cases hkey : resolveName w.word = name
      · have haccnone : List.lookup name acc = none := hkey ▸ hcond.2
        rw [haccnone, List.find?_cons_of_pos _ (by simp [hkey])]
        simp [lookup_cons, hkey]
      · rw [List.find?_cons_of_neg _ (by simp [hkey])]
        have h0 : List.lookup name [(resolveName w.word, w.start)] = none := by
          simp [lookup_cons, Ne.symm hkey]
        rw [h0, Option.or_none]
    · rw [if_neg hcond, ih]
      by_cases hkey : resolveName w.word = name
      · have hs : List.lookup name acc ≠ none := by
          intro hnone
          exact hcond ⟨hkey ▸ hmem, by rw [hkey]; exact hnone⟩
        obtain ⟨v, hv⟩ := Option.ne_none_iff_exists'.mp hs
        rw [hv]
        simp
      · rw [List.find?_cons_of_neg _ (by simp [hkey])]

theorem detectLoop_source (names : List String) (name : String)
    (ws : List Token) :
    ∀ (acc : List (String × ℚ)) (v : ℚ),
    List.lookup name (detectLoop names ws acc) = some v →
    List.lookup name acc = some v ∨
      (name ∈ names ∧ ∃ w ∈ ws, resolveName w.word = name ∧ v = w.start) := by
  induction ws with
  | nil =>
    intro acc v h
    left
    simpa [detectLoop] using h
  | cons w rest ih =>
    intro acc v h
    simp only [detectLoop] at h
    by_cases hcond : resolveName w.word ∈ names ∧
        List.lookup (resolveName w.word) acc = none
    · rw [if_pos hcond] at h
      rcases ih _ v h with hacc | ⟨hn, w', hw', hres, hv⟩
      · rw [lookup_append] at hacc
        cases hlk : List.lookup name acc with
        | some u =>
          rw [hlk] at hacc
          have huv : u = v := by simpa using hacc
          exact Or.inl (congrArg some huv)
        | none =>
          rw [hlk, Option.none_or, lookup_cons] at hacc
          split at hacc
          · next heq =>
            refine Or.inr ⟨heq ▸ hcond.1, w, List.mem_cons_self w rest, heq.symm,
              ?_⟩
            simpa using hacc.symm
          · simp at hacc
      · exact Or.inr ⟨hn, w', List.mem_cons_of_mem w hw', hres, hv⟩
    · rw [if_neg hcond] at h
      rcases ih _ v h with hacc | ⟨hn, w', hw', hres, hv⟩
      · exact Or.inl hacc
      · exact Or.inr ⟨hn, w', List.mem_cons_of_mem w hw', hres, hv⟩

/-- Claim C2: for every name list, token list and total duration, the
Segment Boundary Detector records for each requested canonical name the
start time of the first token (in list order) whose alias-resolved text
equals that name, ignoring later occurrences, and sets a terminal entry at
`total_duration - 0.1`; on the spec's example tokens
`[("A",1.0,1.2), ("B",3.0,3.3), ("A",5.0,5.2)]` with names `["A","B"]` and
total duration 10.0 the result is `{A: 1.0, B: 3.0, _end: 9.9}`. -/
theorem detect_boundaries_first_occurrence (names : List String)
    (words : List Token) (total_dur : ℚ) (name : String)
    (h1 : name ∈ names) (h2 : name ≠ "_end") :
    List.lookup name (detect_boundaries names words total_dur) =
      ((words.find? (fun w => resolveName w.word == name)).map Token.start) ∧
    List.lookup "_end" (detect_boundaries names words total_dur) =
      some (total_dur - 1 / 10) ∧
    detect_boundaries ["A", "B"]
      [⟨"A", 1, 6 / 5⟩, ⟨"B", 3, 33 / 10⟩, ⟨"A", 5, 26 / 5⟩] 10 =
      [("A", 1), ("B", 3), ("_end", 99 / 10)] := by
  refine ⟨?_, lookup_dictSet_self _ _ _, ?_⟩
  · unfold detect_boundaries
    rw [lookup_dictSet_ne _ _ _ _ h2, detectLoop_lookup names name h1 words []]
    simp
  · have hA : resolveName "A" = "A" := by decide
    have hB : resolveName "B" = "B" := by decide
    simp [detect_boundaries, detectLoop, dictSet, hA, hB, lookup_cons]
    norm_num

/-- Witness for C2: on the spec's example, the boundary recorded for `"A"`
is the start of the first `"A"` token. -/
theorem detect_boundaries_first_occurrence_witness :
    List.lookup "A" (detect_boundaries ["A", "B"]
      [⟨"A", 1, 6 / 5⟩, ⟨"B", 3, 33 / 10⟩, ⟨"A", 5, 26 / 5⟩] 10) = some 1 := by
  rw [(detect_boundaries_first_occurrence ["A", "B"]
    [⟨"A", 1, 6 / 5⟩, ⟨"B", 3, 33 / 10⟩, ⟨"A", 5, 26 / 5⟩] 10 "A"
    (by simp) (by simp)).1]
  simp [resolveName, BOUNDARY_MAP, lookup_cons]

/-- Claim C10: for every name list, token list (including the empty list)
and total duration, `detect_boundaries` always contains the key `"_end"`
with value exactly `total_duration - 0.1`; every other entry maps a
requested canonical name to the start time of some token in the list; and
with an empty token list the result is exactly `{_end: total_duration - 0.1}`. -/
theorem detect_boundaries_invariants (names : List String)
    (words : List Token) (total_dur : ℚ) :
    List.lookup "_end" (detect_boundaries names words total_dur) =
      some (total_dur - 1 / 10) ∧
    (∀ name v, name ≠ "_end" →
      List.lookup name (detect_boundaries names words total_dur) = some v →
      name ∈ names ∧ ∃ w ∈ words, resolveName w.word = name ∧ v = w.start) ∧
    detect_boundaries names [] total_dur = [("_end", total_dur - 1 / 10)] := by
  refine ⟨lookup_dictSet_self _ _ _, ?_, by simp [detect_boundaries,
    detectLoop, dictSet]⟩
  intro name v hne hlk
  unfold detect_boundaries at hlk
  rw [lookup_dictSet_ne _ _ _ _ hne] at hlk
  rcases detectLoop_source names name words [] v hlk with h0 | h0
  · simp at h0
  · exact ⟨h0.1, h0.2⟩

/-- Witness for C10: on a singleton token list, the recorded entry for `"A"`
comes from the token. -/
theorem detect_boundaries_invariants_witness :
    "A" ∈ ["A"] ∧ ∃ w ∈ [(⟨"A", 1, 2⟩ : Token)],
      resolveName w.word = "A" ∧ (1 : ℚ) = w.start := by
  refine (detect_boundaries_invariants ["A"] [⟨"A", 1, 2⟩] 10).2.1 "A" 1
    (by simp) ?_
  have hA : resolveName "A" = "A" := by decide
  unfold detect_boundaries
  rw [lookup_dictSet_ne _ _ _ _ (by simp)]
  simp [detectLoop, hA, lookup_cons]

theorem buildSegments_nil_of_none (bounds : List (String × ℚ))
    (words : List Token) (ns : List String)
    (h : ∀ n ∈ ns, List.lookup n bounds = none) :
    buildSegments bounds words ns = [] := by
  induction ns with
  | nil => rfl
  | cons n rest ih =>
    have hn : List.lookup n bounds = none := h n (List.mem_cons_self n rest)
    simp only [buildSegments, hn]
    exact ih (fun m hm => h m (List.mem_cons_of_mem n hm))

/-- Claim C9: when no requested segment name resolves to a boundary, the
Timeline Assembler aborts with a diagnosable `"no segments detected"`
failure and writes no output, rather than silently producing an empty
output. -/
theorem build_video_aborts_no_segments (names : List String)
    (words : List Token) (total_dur : ℚ)
    (h : ∀ n ∈ names,
      List.lookup n (detect_boundaries names words total_dur) = none) :
    build_video names words total_dur = Except.error "no segments detected" := by
  show (if (buildSegments (detect_boundaries names words total_dur) words
      names).isEmpty then Except.error "no segments detected"
    else Except.ok (buildSegments (detect_boundaries names words total_dur)
      words names)) = Except.error "no segments detected"
  rw [buildSegments_nil_of_none _ _ _ h]
  rfl

/-- Witness for C9: a requested name that appears nowhere in the (empty)
transcript aborts the assembly. -/
theorem build_video_aborts_no_segments_witness :
    build_video ["X"] [] 5 = Except.error "no segments detected" := by
  refine build_video_aborts_no_segments ["X"] [] 5 ?_
  intro n hn
  obtain rfl : n = "X" := by simpa using hn
  unfold detect_boundaries
  rw [lookup_dictSet_ne _ _ _ _ (by simp)]
  simp [detectLoop]

theorem batchFix_length (result orig : List String) :
    (batchFix result orig).length = orig.length := by
  unfold batchFix
  split
  · next h =>
    simp only [List.length_take, List.length_append, List.length_drop]
    omega
  · next h =>
    simp only [List.length_take]
    omega

theorem chunksOf_flatten {α : Type} (n : ℕ) (hn : n ≠ 0) :
    ∀ l : List α, (chunksOf n l).flatten = l
  | l => by
    rw [chunksOf]
    by_cases he : l.isEmpty
    · rw [if_pos he]
      simpa using (List.isEmpty_iff.mp he).symm
    · rw [if_neg he, dif_neg hn, List.flatten_cons,
        chunksOf_flatten n hn (l.drop n), List.take_append_drop]
termination_by l => l.length
decreasing_by
  simp only [List.length_drop]
  have h1 : l ≠ [] := by simpa [List.isEmpty_iff] using he
  have h2 : 0 < l.length := List.length_pos.mpr h1
  show l.length - n < l.length
  omega

theorem enumFrom_batch_length (responses : ℕ → List String) (k : ℕ)
    (bs : List (List String)) :
    (((bs.enumFrom k).map (fun p => batchFix (responses p.1) p.2)).flatten).length
      = bs.flatten.length := by
  induction bs generalizing k with
  | nil => simp
  | cons b tl ih =>
    simp [List.enumFrom, batchFix_length, ih]

theorem to_hinglish_inner_length (responses : ℕ → List String)
    (words : List Token) :
    (((chunksOf 50 (words.map Token.word)).enum.map
      (fun p => batchFix (responses p.1) p.2)).flatten).length = words.length := by
  show (((chunksOf 50 (words.map Token.word)).enumFrom 0).map
      (fun p => batchFix (responses p.1) p.2)).flatten.length = words.length
  rw [enumFrom_batch_length, chunksOf_flatten 50 (by norm_num),
    List.length_map]

/-- Claim C8: for every input word list and every batch conversion response,
`to_hinglish` returns a list whose length equals the input length; a batch
response shorter than its batch is padded with the corresponding original
words, a longer one is truncated to the batch size, and every output record
keeps the start and end times of the input word at the same position. -/
theorem to_hinglish_alignment (responses : ℕ → List String)
    (words : List Token) :
    (to_hinglish responses words).length = words.length ∧
    (∀ (i : ℕ) (hi : i < (to_hinglish responses words).length)
        (hw : i < words.length),
      ((to_hinglish responses words).get ⟨i, hi⟩).start =
        (words.get ⟨i, hw⟩).start ∧
      ((to_hinglish responses words).get ⟨i, hi⟩).stop =
        (words.get ⟨i, hw⟩).stop) ∧
    (∀ result orig : List String, result.length < orig.length →
      batchFix result orig = result ++ orig.drop result.length) ∧
    (∀ result orig : List String, orig.length ≤ result.length →
      batchFix result orig = result.take orig.length) := by
  have hlen := to_hinglish_inner_length responses words
  refine ⟨?_, ?_, ?_, ?_⟩
  · simp [to_hinglish, hlen]
  · intro i hi hw
    have hget : (to_hinglish responses words).get ⟨i, hi⟩ =
        { word := (((chunksOf 50 (words.map Token.word)).enum.map
            (fun p => batchFix (responses p.1) p.2)).flatten).get
              ⟨i, by simp [to_hinglish] at hi; omega⟩,
          start := (words.get ⟨i, hw⟩).start,
          stop := (words.get ⟨i, hw⟩).stop } := by
      simp [to_hinglish, List.getElem_zipWith]
    rw [hget]
    exact ⟨rfl, rfl⟩
  · intro result orig h
    unfold batchFix
    rw [if_pos h, List.take_of_length_le (by simp; omega)]
  · intro result orig h
    unfold batchFix
    rw [if_neg (not_lt.mpr h)]

/-- Witness for C8: a one-element batch reply against a two-word batch is
padded with the second original word. -/
theorem to_hinglish_alignment_witness :
    batchFix ["a"] ["b", "c"] = ["a"] ++ List.drop 1 ["b", "c"] :=
  (to_hinglish_alignment (fun _ => []) []).2.2.1 ["a"] ["b", "c"] (by decide)
